import Mathlib

/-!
Verification of the numeric-input / derived-result core of the excalc
currency converter (src/src/App.tsx).

Strings are modelled as `List Char`; JS numbers as exact rationals extended
with the IEEE special values (`JSNum`).  Double-precision rounding is
abstracted: arithmetic on finite values is exact.
-/

namespace ExCalc

/-- The character for decimal digit `d` (`d < 10`). -/
def digitChar (d : ℕ) : Char := Char.ofNat (48 + d)

/-- The decimal value of a digit character. -/
def digitVal (c : Char) : ℕ := c.toNat - 48

/-- Numeric value of a most-significant-first list of digit characters. -/
def natOfDigits (l : List Char) : ℕ := l.foldl (fun acc c => 10 * acc + digitVal c) 0

/-- Value of a digit list read as a fractional part `0.d₁d₂…`. -/
def fracOfDigits (l : List Char) : ℚ := (natOfDigits l : ℚ) / 10 ^ l.length

/-- Model of the platform primitive `parseFloat` (ECMA-262) on the strings this
program feeds it (digits and dots; signs, exponents, whitespace and `Infinity`
never occur in a RawAmount).  `none` models `NaN`: parsing fails exactly when
no digit occurs before the first character that cannot extend the literal. -/
def jsParseFloat (s : List Char) : Option ℚ :=
  let ip := s.takeWhile Char.isDigit
  let rest := s.dropWhile Char.isDigit
  if rest.head? = some '.' then
    let fp := rest.tail.takeWhile Char.isDigit
    if ip = [] ∧ fp = [] then none
    else some ((natOfDigits ip : ℚ) + fracOfDigits fp)
  else if ip = [] then none else some ((natOfDigits ip : ℚ))

/-- Fuel-driven digit expansion, most significant digit first. -/
def natDigitsAux : ℕ → ℕ → List Char
  | _, 0 => []
  | 0, _ + 1 => []
  | fuel + 1, n + 1 => natDigitsAux fuel ((n + 1) / 10) ++ [digitChar ((n + 1) % 10)]

/-- Decimal digit characters of `n`, most significant first, as JS
number-to-string conversion produces for a natural number. -/
def natDigits (n : ℕ) : List Char := if n = 0 then ['0'] else natDigitsAux n n

/-- Insert `,` after every third character of a reversed digit string. -/
def group3rev : List Char → List Char
  | a :: b :: c :: d :: rest => a :: b :: c :: ',' :: group3rev (d :: rest)
  | l => l

/-- en-US thousands grouping of a (most-significant-first) digit string. -/
def groupDigits (l : List Char) : List Char := (group3rev l.reverse).reverse

/-- The three decimal digits of `fr < 1000`, with leading zeros. -/
def pad3 (fr : ℕ) : List Char :=
  [digitChar (fr / 100 % 10), digitChar (fr / 10 % 10), digitChar (fr % 10)]

/-- Remove trailing `'0'` characters. -/
def dropTrailingZeros (l : List Char) : List Char :=
  (l.reverse.dropWhile (fun c => c == '0')).reverse

/-- The fractional part (with its leading dot) that `toLocaleString('en-US')`
prints for a thousandths remainder `fr < 1000`: three digits with trailing
zeros removed, or nothing when all would be zero. -/
def fracPart (fr : ℕ) : List Char :=
  let fds := dropTrailingZeros (pad3 fr)
  if fds = [] then [] else '.' :: fds

/-- Model of `num.toLocaleString('en-US')` with default options
(minimumFractionDigits 0, maximumFractionDigits 3, grouping on, halfExpand
rounding) on an exact finite value. -/
def toLocaleDefault (q : ℚ) : List Char :=
  let n : ℕ := (⌊|q| * 1000 + 1 / 2⌋).toNat
  let sign : List Char := if q < 0 then ['-'] else []
  sign ++ groupDigits (natDigits (n / 1000)) ++ fracPart (n % 1000)

/-- A JS number as it matters to this program: an exact finite value, an
infinity, or NaN. -/
inductive JSNum where
  | fin (q : ℚ)
  | posInf
  | negInf
  | nan
  deriving DecidableEq

/-- JS `isNaN(num)` for a number argument. -/
def jsIsNaN : JSNum → Bool
  | .nan => true
  | _ => false

/-- JS strict equality test `num === 0`. -/
def jsEqZero : JSNum → Bool
  | .fin q => q == 0
  | _ => false

/-- Digit characters of `m` left-padded with zeros to length `d`. -/
def padLeftDigits (d : ℕ) (m : ℕ) : List Char :=
  List.replicate (d - (natDigits m).length) '0' ++ natDigits m

/-- Model of `q.toLocaleString('en-US', { minimumFractionDigits: d,
maximumFractionDigits: d })` on an exact finite value.  ECMA-402 option
validation rejects fraction-digit counts outside 0–100 with a RangeError
before any formatting happens; the thrown error is modelled as `none`. -/
def toLocaleFixed (q : ℚ) (d : ℕ) : Option (List Char) :=
  if 100 < d then none
  else
    let n : ℕ := (⌊|q| * 10 ^ d + 1 / 2⌋).toNat
    let sign : List Char := if q < 0 then ['-'] else []
    some (sign ++ groupDigits (natDigits (n / 10 ^ d)) ++
      (if d = 0 then [] else '.' :: padLeftDigits d (n % 10 ^ d)))

/-- Locale formatting with fixed fraction digits lifted to `JSNum`.  The
option validation happens before the value is looked at, so an out-of-range
fraction-digit count throws (`none`) for every value, the infinities
included; within range, Intl renders the infinities with the infinity sign
and NaN as `"NaN"`. -/
def jsToLocaleFixed (num : JSNum) (d : ℕ) : Option (List Char) :=
  if 100 < d then none
  else
    match num with
    | .fin q => toLocaleFixed q d
    | .posInf => some ['∞']
    | .negInf => some ['-', '∞']
    | .nan => some ['N', 'a', 'N']

/-- The function `formatNumber` (App.tsx lines 27–35): `'0.' + '0'.repeat(decimals)` when
`isNaN(num) || num === 0` (pure string building, cannot throw), otherwise
locale formatting with exactly `decimals` fraction digits — which throws a
RangeError (modelled `none`) when `decimals` lies outside the ECMA-402
fraction-digit range 0–100. -/
def formatNumber (num : JSNum) (decimals : ℕ) : Option (List Char) :=
  if jsIsNaN num || jsEqZero num then
    some ('0' :: '.' :: List.replicate decimals '0')
  else jsToLocaleFixed num decimals

/-- The operator of a derived-result formula; the ratio formulas are
divisions. -/
inductive Op where
  | divide
  | multiply
  deriving DecidableEq

/-- JS binary arithmetic on finite operands (exact on finite results), with
the IEEE special cases for division by zero. -/
def jsOp : Op → ℚ → ℚ → JSNum
  | .divide, x, y =>
      if y = 0 then (if x = 0 then .nan else if 0 < x then .posInf else .negInf)
      else .fin (x / y)
  | .multiply, x, y => .fin (x * y)

/-- The guarded derived-result formulas (App.tsx lines 187–190):
`b && a && !isNaN(parseFloat(a)) && !isNaN(parseFloat(b)) ? parseFloat(a) OP
parseFloat(b) : 0` — a non-empty JS string is truthy, and `parseFloat`
yields `NaN` exactly when the parse fails. -/
def compute (op : Op) (a b : List Char) : JSNum :=
  if b ≠ [] ∧ a ≠ [] ∧ (jsParseFloat a).isSome ∧ (jsParseFloat b).isSome then
    jsOp op ((jsParseFloat a).getD 0) ((jsParseFloat b).getD 0)
  else .fin 0

/-- The display-synchronization effect (App.tsx lines 58–71): empty for empty
value; grouped number (plus a literal dot when the value ends in one) when
the value parses; the value verbatim otherwise. -/
def displaySync (value : List Char) : List Char :=
  if value = [] then []
  else
    match jsParseFloat value with
    | some q =>
        if value.getLast? = some '.' then toLocaleDefault q ++ ['.']
        else toLocaleDefault q
    | none => value

/-- Model of JS `String.prototype.split('.')`. -/
def splitDot : List Char → List (List Char)
  | [] => [[]]
  | c :: rest =>
      let gs := splitDot rest
      if c = '.' then [] :: gs else (c :: gs.headI) :: gs.tail

/-- A character kept by the `[^0-9.]` strip: an ASCII digit or a dot. -/
def isAmountChar (c : Char) : Bool := c.isDigit || c == '.'

/-- The `handleChange` sanitization (App.tsx lines 73–84): strip every character
outside `[0-9.]`; if more than one dot remains, keep the first and append
the remaining groups joined as one fractional part. -/
def sanitize (input : List Char) : List Char :=
  let cleaned := input.filter isAmountChar
  let parts := splitDot cleaned
  if parts.length > 2 then parts.headI ++ '.' :: parts.tail.flatten
  else cleaned

/-- Strip en-US grouping separators. -/
def removeCommas (l : List Char) : List Char := l.filter (fun c => c != ',')

/-- The state a field owns: the RawAmount model `value` (lifted to the
parent via `onChange`) and the derived DisplayText. -/
structure FieldState where
  value : List Char
  display : List Char
  deriving DecidableEq

/-- The `handleBlur` handler (App.tsx lines 86–98).  The returned Bool records whether
`onChange` fired, i.e. whether a model change was emitted to the caller;
when it fires with `''` the parent value becomes empty. -/
def handleBlur (s : FieldState) : FieldState × Bool :=
  if s.value ≠ [] then
    match jsParseFloat s.value with
    | some q => ({ s with display := toLocaleDefault q }, false)
    | none => ({ value := [], display := [] }, true)
  else ({ s with display := [] }, false)

/-! ### Digit and digit-string lemmas -/

theorem digitVal_digitChar {d : ℕ} (h : d < 10) : digitVal (digitChar d) = d := by
  interval_cases d <;> rfl

theorem isDigit_digitChar {d : ℕ} (h : d < 10) : (digitChar d).isDigit = true := by
  interval_cases d <;> rfl

theorem natOfDigits_append (l : List Char) (c : Char) :
    natOfDigits (l ++ [c]) = 10 * natOfDigits l + digitVal c := by
  simp [natOfDigits]

theorem natOfDigits_natDigitsAux (fuel : ℕ) :
    ∀ n, n ≤ fuel → natOfDigits (natDigitsAux fuel n) = n := by
  induction fuel with
  | zero =>
      intro n hn
      interval_cases n
      rfl
  | succ fuel ih =>
      intro n hn
      match n with
      | 0 => rfl
      | m + 1 =>
          simp only [natDigitsAux]
          rw [natOfDigits_append, ih ((m + 1) / 10) (by omega),
            digitVal_digitChar (Nat.mod_lt _ (by norm_num))]
          omega

theorem isDigit_of_mem_natDigitsAux (fuel : ℕ) :
    ∀ n, ∀ c ∈ natDigitsAux fuel n, c.isDigit = true := by
  induction fuel with
  | zero =>
      intro n c hc
      match n with
      | 0 => simp [natDigitsAux] at hc
      | m + 1 => simp [natDigitsAux] at hc
  | succ fuel ih =>
      intro n c hc
      match n with
      | 0 => simp [natDigitsAux] at hc
      | m + 1 =>
          simp only [natDigitsAux, List.mem_append, List.mem_singleton] at hc
          rcases hc with hc | rfl
          · exact ih _ _ hc
          · exact isDigit_digitChar (Nat.mod_lt _ (by norm_num))

theorem natOfDigits_natDigits (n : ℕ) : natOfDigits (natDigits n) = n := by
  unfold natDigits
  split
  · subst n; rfl
  · exact natOfDigits_natDigitsAux n n le_rfl

theorem isDigit_of_mem_natDigits (n : ℕ) : ∀ c ∈ natDigits n, c.isDigit = true := by
  unfold natDigits
  split
  · intro c hc
    simp only [List.mem_singleton] at hc
    subst hc
    rfl
  · exact isDigit_of_mem_natDigitsAux n n

theorem natDigits_ne_nil (n : ℕ) : natDigits n ≠ [] := by
  match n with
  | 0 => simp [natDigits]
  | m + 1 =>
      simp only [natDigits, if_neg (Nat.succ_ne_zero m), natDigitsAux]
      simp

/-! ### Parsing lemmas -/

theorem jsParseFloat_nil : jsParseFloat [] = none := rfl

theorem jsParseFloat_ne_nil {v : List Char} {q : ℚ} (h : jsParseFloat v = some q) :
    v ≠ [] := by
  intro hv
  rw [hv, jsParseFloat_nil] at h
  cases h

theorem jsParseFloat_digits {l : List Char} (hne : l ≠ [])
    (hd : ∀ c ∈ l, c.isDigit = true) : jsParseFloat l = some ((natOfDigits l : ℚ)) := by
  have h1 : l.takeWhile Char.isDigit = l := by
    have h : (l ++ ([] : List Char)).takeWhile Char.isDigit =
        l ++ ([] : List Char).takeWhile Char.isDigit :=
      List.takeWhile_append_of_pos hd
    simpa using h
  have h2 : l.dropWhile Char.isDigit = [] := by
    have h : (l ++ ([] : List Char)).dropWhile Char.isDigit =
        ([] : List Char).dropWhile Char.isDigit :=
      List.dropWhile_append_of_pos hd
    simpa using h
  simp only [jsParseFloat, h1, h2, if_neg hne, List.head?_nil, reduceCtorEq, if_false]

theorem jsParseFloat_digits_dot {l f r : List Char} (hne : l ≠ [])
    (hl : ∀ c ∈ l, c.isDigit = true) (hf : ∀ c ∈ f, c.isDigit = true)
    (hr : ∀ c, r.head? = some c → c.isDigit = false) :
    jsParseFloat (l ++ '.' :: (f ++ r)) =
      some ((natOfDigits l : ℚ) + fracOfDigits f) := by
  have hdot : ('.' : Char).isDigit = false := rfl
  have h1 : (l ++ '.' :: (f ++ r)).takeWhile Char.isDigit = l := by
    rw [List.takeWhile_append_of_pos hl, List.takeWhile_cons_of_neg (by simp [hdot])]
    simp
  have h2 : (l ++ '.' :: (f ++ r)).dropWhile Char.isDigit = '.' :: (f ++ r) := by
    rw [List.dropWhile_append_of_pos hl, List.dropWhile_cons_of_neg (by simp [hdot])]
  have h3 : (f ++ r).takeWhile Char.isDigit = f := by
    rw [List.takeWhile_append_of_pos hf]
    cases r with
    | nil => simp
    | cons c t =>
        rw [List.takeWhile_cons_of_neg (by simp [hr c rfl])]
        simp
  simp only [jsParseFloat, h1, h2, List.head?_cons, List.tail_cons, h3]
  rw [if_pos trivial, if_neg (by simp [hne])]

theorem jsParseFloat_nonneg {v : List Char} {q : ℚ} (h : jsParseFloat v = some q) :
    0 ≤ q := by
  simp only [jsParseFloat, fracOfDigits] at h
  split at h
  · split at h
    · cases h
    · rw [Option.some.injEq] at h
      subst h
      positivity
  · split at h
    · cases h
    · rw [Option.some.injEq] at h
      subst h
      positivity

/-! ### Fraction-digit lemmas -/

theorem fracOfDigits_nil : fracOfDigits [] = 0 := by
  simp [fracOfDigits, natOfDigits]

theorem fracOfDigits_append_zero (l : List Char) :
    fracOfDigits (l ++ ['0']) = fracOfDigits l := by
  have hz : digitVal '0' = 0 := rfl
  simp only [fracOfDigits, natOfDigits_append, hz, add_zero, List.length_append,
    List.length_singleton, pow_succ]
  push_cast
  rw [mul_comm ((10 : ℚ) ^ l.length) 10, mul_div_mul_left _ _ (by norm_num : (10 : ℚ) ≠ 0)]

theorem dropTrailingZeros_append_zero (l : List Char) :
    dropTrailingZeros (l ++ ['0']) = dropTrailingZeros l := by
  simp [dropTrailingZeros]

theorem dropTrailingZeros_append_of_ne {l : List Char} {c : Char} (hc : c ≠ '0') :
    dropTrailingZeros (l ++ [c]) = l ++ [c] := by
  simp only [dropTrailingZeros, List.reverse_append, List.reverse_singleton,
    List.singleton_append]
  rw [List.dropWhile_cons_of_neg (by simp [hc])]
  simp

theorem fracOfDigits_dropTrailingZeros (l : List Char) :
    fracOfDigits (dropTrailingZeros l) = fracOfDigits l := by
  induction l using List.reverseRecOn with
  | nil => rfl
  | append_singleton l c ih =>
      by_cases hc : c = '0'
      · subst hc
        rw [dropTrailingZeros_append_zero, ih, fracOfDigits_append_zero]
      · rw [dropTrailingZeros_append_of_ne hc]

theorem isDigit_of_mem_dropTrailingZeros {l : List Char}
    (h : ∀ c ∈ l, c.isDigit = true) : ∀ c ∈ dropTrailingZeros l, c.isDigit = true := by
  intro c hc
  apply h
  rw [dropTrailingZeros, List.mem_reverse] at hc
  exact List.mem_reverse.mp ((List.dropWhile_sublist _).subset hc)

theorem natOfDigits_pad3 {fr : ℕ} (h : fr < 1000) : natOfDigits (pad3 fr) = fr := by
  simp only [pad3, natOfDigits, List.foldl,
    digitVal_digitChar (Nat.mod_lt (fr / 100) (by norm_num)),
    digitVal_digitChar (Nat.mod_lt (fr / 10) (by norm_num)),
    digitVal_digitChar (Nat.mod_lt fr (by norm_num))]
  omega

theorem isDigit_of_mem_pad3 (fr : ℕ) : ∀ c ∈ pad3 fr, c.isDigit = true := by
  intro c hc
  simp only [pad3, List.mem_cons, List.not_mem_nil, or_false] at hc
  rcases hc with rfl | rfl | rfl <;>
    exact isDigit_digitChar (Nat.mod_lt _ (by norm_num))

theorem fracOfDigits_pad3 {fr : ℕ} (h : fr < 1000) :
    fracOfDigits (pad3 fr) = (fr : ℚ) / 1000 := by
  have hlen : (pad3 fr).length = 3 := rfl
  rw [fracOfDigits, natOfDigits_pad3 h, hlen]
  norm_num

/-- The shape of `fracPart fr` together with its numeric value. -/
theorem fracPart_cases {fr : ℕ} (h : fr < 1000) :
    (fracPart fr = [] ∧ (fr : ℚ) / 1000 = 0) ∨
    (∃ fds, fracPart fr = '.' :: fds ∧ fds ≠ [] ∧
      (∀ c ∈ fds, c.isDigit = true) ∧ fracOfDigits fds = (fr : ℚ) / 1000) := by
  have hval : fracOfDigits (dropTrailingZeros (pad3 fr)) = (fr : ℚ) / 1000 := by
    rw [fracOfDigits_dropTrailingZeros, fracOfDigits_pad3 h]
  by_cases hds : dropTrailingZeros (pad3 fr) = []
  · left
    constructor
    · simp [fracPart, hds]
    · rw [← hval, hds, fracOfDigits_nil]
  · right
    refine ⟨dropTrailingZeros (pad3 fr), ?_, hds, ?_, hval⟩
    · simp [fracPart, hds]
    · exact isDigit_of_mem_dropTrailingZeros (isDigit_of_mem_pad3 fr)

/-! ### Grouping lemmas -/

theorem removeCommas_group3rev (l : List Char) :
    removeCommas (group3rev l) = removeCommas l := by
  induction l using group3rev.induct with
  | case1 a b c d rest ih =>
      simp only [group3rev, removeCommas, List.filter_cons] at ih ⊢
      simp [ih]
  | case2 l h =>
      match l, h with
      | [], _ => rfl
      | [a], _ => rfl
      | [a, b], _ => rfl
      | [a, b, c], _ => rfl
      | a :: b :: c :: d :: rest, h => exact (h a b c d rest rfl).elim

theorem removeCommas_groupDigits (l : List Char) :
    removeCommas (groupDigits l) = removeCommas l := by
  have h := removeCommas_group3rev l.reverse
  simp only [removeCommas, groupDigits] at h ⊢
  rw [List.filter_reverse, h, List.filter_reverse, List.reverse_reverse]

theorem removeCommas_eq_self {l : List Char} (h : ∀ c ∈ l, c ≠ ',') :
    removeCommas l = l := by
  rw [removeCommas, List.filter_eq_self]
  intro a ha
  simpa using h a ha

theorem removeCommas_eq_self_of_digits {l : List Char}
    (h : ∀ c ∈ l, c.isDigit = true) : removeCommas l = l := by
  apply removeCommas_eq_self
  intro c hc hcc
  have := h c hc
  rw [hcc] at this
  cases this

/-! ### Rounding lemma -/

theorem floor_half_add_natCast (n : ℕ) : ⌊(n : ℚ) + 1 / 2⌋ = n := by
  have h0 : ⌊(1 / 2 : ℚ)⌋ = 0 := by
    rw [Int.floor_eq_zero_iff]
    constructor <;> norm_num
  rw [show ((n : ℚ) + 1 / 2) = ((n : ℤ) : ℚ) + 1 / 2 by push_cast; ring,
    Int.floor_int_add, h0, add_zero]

theorem round_toNat_of_exact {q : ℚ} {n : ℕ} (hq : 0 ≤ q)
    (hn : q * 1000 = n) : (⌊|q| * 1000 + 1 / 2⌋).toNat = n := by
  rw [abs_of_nonneg hq, hn, floor_half_add_natCast]
  exact Int.toNat_natCast n

/-! ### Re-parsing a grouped display -/

theorem removeCommas_fracPart {fr : ℕ} (hfr : fr < 1000) :
    removeCommas (fracPart fr) = fracPart fr := by
  rcases fracPart_cases hfr with ⟨hfp, _⟩ | ⟨fds, hfp, _, hdig, _⟩
  · rw [hfp]; rfl
  · rw [hfp]
    apply removeCommas_eq_self
    intro c hc
    rcases List.mem_cons.mp hc with rfl | hc
    · decide
    · intro hcc
      have := hdig c hc
      rw [hcc] at this
      cases this

theorem jsParseFloat_display (ip fr : ℕ) (hfr : fr < 1000) {r : List Char}
    (hr : r = [] ∨ r = ['.']) :
    jsParseFloat (removeCommas (groupDigits (natDigits ip) ++ fracPart fr ++ r)) =
      some ((ip : ℚ) + (fr : ℚ) / 1000) := by
  have hrc : removeCommas r = r := by
    rcases hr with rfl | rfl
    · rfl
    · rfl
  have hgc : removeCommas (groupDigits (natDigits ip)) = natDigits ip := by
    rw [removeCommas_groupDigits]
    exact removeCommas_eq_self_of_digits (isDigit_of_mem_natDigits ip)
  simp only [removeCommas, List.filter_append] at *
  rw [show List.filter (fun c => c != ',') (fracPart fr) = fracPart fr from
    removeCommas_fracPart hfr, hrc, hgc]
  rcases fracPart_cases hfr with ⟨hfp, hval⟩ | ⟨fds, hfp, hne, hdig, hval⟩
  · rw [hfp, List.append_nil, hval, add_zero]
    rcases hr with rfl | rfl
    · rw [List.append_nil,
        jsParseFloat_digits (natDigits_ne_nil ip) (isDigit_of_mem_natDigits ip),
        natOfDigits_natDigits]
    · have h := jsParseFloat_digits_dot (f := []) (r := [])
        (natDigits_ne_nil ip) (isDigit_of_mem_natDigits ip)
        (by intro c hc; cases hc) (by intro c hc; cases hc)
      simpa [fracOfDigits_nil, natOfDigits_natDigits] using h
  · rw [hfp]
    have hr2 : ∀ c, r.head? = some c → c.isDigit = false := by
      rcases hr with rfl | rfl
      · intro c hc; cases hc
      · intro c hc
        rw [List.head?_cons, Option.some.injEq] at hc
        subst hc
        rfl
    have h := jsParseFloat_digits_dot (f := fds) (r := r)
      (natDigits_ne_nil ip) (isDigit_of_mem_natDigits ip) hdig hr2
    rw [show natDigits ip ++ '.' :: fds ++ r = natDigits ip ++ '.' :: (fds ++ r) by simp,
      h, natOfDigits_natDigits, hval]

theorem parse_removeCommas_toLocaleDefault {q : ℚ} {n : ℕ} (hq : 0 ≤ q)
    (hn : q * 1000 = n) {r : List Char} (hr : r = [] ∨ r = ['.']) :
    jsParseFloat (removeCommas (toLocaleDefault q ++ r)) = some q := by
  have hq' : ¬ q < 0 := not_lt.mpr hq
  simp only [toLocaleDefault, round_toNat_of_exact hq hn, if_neg hq', List.nil_append]
  rw [jsParseFloat_display (n / 1000) (n % 1000) (Nat.mod_lt _ (by norm_num)) hr]
  congr 1
  have hdm : 1000 * (n / 1000) + n % 1000 = n := Nat.div_add_mod n 1000
  have hc : ((1000 * (n / 1000) + n % 1000 : ℕ) : ℚ) = q * 1000 := by
    rw [hdm, hn]
  push_cast at hc
  linarith

/-- Round-trip of the grouped display back through `parseFloat`, valid whenever
the parsed value needs at most three fraction digits. -/
theorem displaySync_reparse {v : List Char} {q : ℚ} (hv : jsParseFloat v = some q)
    {n : ℕ} (hn : q * 1000 = n) :
    jsParseFloat (removeCommas (displaySync v)) = some q := by
  have hne : v ≠ [] := jsParseFloat_ne_nil hv
  have hq : 0 ≤ q := jsParseFloat_nonneg hv
  rw [displaySync, if_neg hne, hv]
  dsimp only
  by_cases hlast : v.getLast? = some '.'
  · rw [if_pos hlast]
    exact parse_removeCommas_toLocaleDefault hq hn (Or.inr rfl)
  · rw [if_neg hlast, ← List.append_nil (toLocaleDefault q)]
    exact parse_removeCommas_toLocaleDefault hq hn (Or.inl rfl)

/-! ### splitDot and sanitize lemmas -/

theorem splitDot_ne_nil (l : List Char) : splitDot l ≠ [] := by
  cases l with
  | nil => simp [splitDot]
  | cons c rest =>
      simp only [splitDot]
      split <;> simp

theorem length_splitDot (l : List Char) : (splitDot l).length = l.count '.' + 1 := by
  induction l with
  | nil => rfl
  | cons c rest ih =>
      simp only [splitDot]
      by_cases hc : c = '.'
      · subst hc
        rw [if_pos rfl]
        simp only [List.length_cons, ih, List.count_cons]
        simp
      · rw [if_neg hc]
        have hlen : 0 < (splitDot rest).length :=
          List.length_pos.mpr (splitDot_ne_nil rest)
        rw [List.count_cons]
        simp only [List.length_cons, List.length_tail, ih,
          show (c == '.') = false by simp [hc], Bool.false_eq_true, if_false]
        omega

theorem headI_splitDot (l : List Char) :
    (splitDot l).headI = l.takeWhile (fun c => c != '.') := by
  induction l with
  | nil => rfl
  | cons c rest ih =>
      simp only [splitDot]
      by_cases hc : c = '.'
      · subst hc
        rw [if_pos rfl, List.takeWhile_cons_of_neg (by simp)]
        rfl
      · rw [if_neg hc, List.takeWhile_cons_of_pos (by simp [hc])]
        obtain ⟨g, t, hgt⟩ := List.exists_cons_of_ne_nil (splitDot_ne_nil rest)
        rw [hgt] at ih ⊢
        simp only [List.headI] at ih ⊢
        rw [ih]

theorem flatten_splitDot (l : List Char) :
    (splitDot l).flatten = l.filter (fun c => c != '.') := by
  induction l with
  | nil => rfl
  | cons c rest ih =>
      simp only [splitDot]
      by_cases hc : c = '.'
      · subst hc
        rw [if_pos rfl, List.filter_cons_of_neg (by simp)]
        simpa using ih
      · rw [if_neg hc, List.filter_cons_of_pos (by simp [hc])]
        obtain ⟨g, t, hgt⟩ := List.exists_cons_of_ne_nil (splitDot_ne_nil rest)
        rw [hgt] at ih ⊢
        simp only [List.headI, List.tail_cons, List.flatten_cons,
          List.cons_append] at ih ⊢
        rw [ih]

theorem headI_append_tail_flatten (l : List Char) :
    (splitDot l).headI ++ (splitDot l).tail.flatten =
      l.filter (fun c => c != '.') := by
  obtain ⟨g, t, hgt⟩ := List.exists_cons_of_ne_nil (splitDot_ne_nil l)
  have h := flatten_splitDot l
  rw [hgt] at h ⊢
  simp only [List.flatten_cons] at h
  simpa [List.headI] using h

theorem sanitize_of_many_dots {s : List Char}
    (h : 2 ≤ (s.filter isAmountChar).count '.') :
    sanitize s = (splitDot (s.filter isAmountChar)).headI ++
      '.' :: (splitDot (s.filter isAmountChar)).tail.flatten := by
  simp only [sanitize]
  rw [if_pos]
  rw [length_splitDot]
  omega

theorem sanitize_of_few_dots {s : List Char}
    (h : (s.filter isAmountChar).count '.' ≤ 1) :
    sanitize s = s.filter isAmountChar := by
  simp only [sanitize]
  rw [if_neg]
  rw [length_splitDot]
  omega

theorem mem_headI_splitDot {l : List Char} {c : Char}
    (hc : c ∈ (splitDot l).headI) : c ∈ l ∧ (c != '.') = true := by
  rw [headI_splitDot] at hc
  exact ⟨(List.takeWhile_sublist _).subset hc,
    List.mem_takeWhile_imp (p := fun c => c != '.') hc⟩

theorem mem_tail_flatten_splitDot {l : List Char} {c : Char}
    (hc : c ∈ (splitDot l).tail.flatten) : c ∈ l ∧ (c != '.') = true := by
  have hsub : c ∈ (splitDot l).headI ++ (splitDot l).tail.flatten :=
    List.mem_append_right _ hc
  rw [headI_append_tail_flatten, List.mem_filter] at hsub
  exact hsub

theorem sanitize_chars (s : List Char) : ∀ c ∈ sanitize s, isAmountChar c = true := by
  intro c hc
  by_cases h : 2 ≤ (s.filter isAmountChar).count '.'
  · rw [sanitize_of_many_dots h] at hc
    rcases List.mem_append.mp hc with hc | hc
    · exact (List.mem_filter.mp (mem_headI_splitDot hc).1).2
    · rcases List.mem_cons.mp hc with rfl | hc
      · rfl
      · exact (List.mem_filter.mp (mem_tail_flatten_splitDot hc).1).2
  · rw [sanitize_of_few_dots (by omega)] at hc
    exact (List.mem_filter.mp hc).2

theorem sanitize_count (s : List Char) : (sanitize s).count '.' ≤ 1 := by
  by_cases h : 2 ≤ (s.filter isAmountChar).count '.'
  · rw [sanitize_of_many_dots h]
    have h1 : List.count '.' (splitDot (s.filter isAmountChar)).headI = 0 :=
      List.count_eq_zero.mpr (fun hc => by simpa using (mem_headI_splitDot hc).2)
    have h2 : List.count '.' (splitDot (s.filter isAmountChar)).tail.flatten = 0 :=
      List.count_eq_zero.mpr (fun hc => by simpa using (mem_tail_flatten_splitDot hc).2)
    rw [List.count_append, List.count_cons, h1, h2]
    simp
  · rw [sanitize_of_few_dots (by omega)]
    omega

theorem sanitize_count_of_many_dots {s : List Char}
    (h : 2 ≤ (s.filter isAmountChar).count '.') : (sanitize s).count '.' = 1 := by
  rw [sanitize_of_many_dots h]
  have h1 : List.count '.' (splitDot (s.filter isAmountChar)).headI = 0 :=
    List.count_eq_zero.mpr (fun hc => by simpa using (mem_headI_splitDot hc).2)
  have h2 : List.count '.' (splitDot (s.filter isAmountChar)).tail.flatten = 0 :=
    List.count_eq_zero.mpr (fun hc => by simpa using (mem_tail_flatten_splitDot hc).2)
  rw [List.count_append, List.count_cons, h1, h2]
  simp

theorem sanitize_fixed {l : List Char} (h1 : ∀ c ∈ l, isAmountChar c = true)
    (h2 : l.count '.' ≤ 1) : sanitize l = l := by
  have hf : l.filter isAmountChar = l := List.filter_eq_self.mpr h1
  have h := sanitize_of_few_dots (s := l) (by rw [hf]; exact h2)
  rw [hf] at h
  exact h

theorem sanitize_digits_of_many_dots {s : List Char}
    (h : 2 ≤ (s.filter isAmountChar).count '.') :
    (sanitize s).filter Char.isDigit = s.filter Char.isDigit := by
  rw [sanitize_of_many_dots h, List.filter_append,
    List.filter_cons_of_neg (by simp), ← List.filter_append,
    headI_append_tail_flatten, List.filter_filter, List.filter_filter]
  apply List.filter_congr
  intro c hc
  cases hd : c.isDigit
  · simp [hd]
  · have hne : (c != '.') = true := by
      have hcd : c ≠ '.' := by
        intro hcc
        rw [hcc] at hd
        cases hd
      simpa using hcd
    simp [hd, hne, isAmountChar]

theorem sanitize_takeWhile_of_many_dots {s : List Char}
    (h : 2 ≤ (s.filter isAmountChar).count '.') :
    (sanitize s).takeWhile (fun c => c != '.') =
      (s.filter isAmountChar).takeWhile (fun c => c != '.') := by
  rw [sanitize_of_many_dots h,
    List.takeWhile_append_of_pos (fun c hc => (mem_headI_splitDot hc).2),
    List.takeWhile_cons_of_neg (by simp), List.append_nil, headI_splitDot]

/-! ### Case lemmas for the UI operations -/

theorem displaySync_nil : displaySync [] = [] := rfl

theorem displaySync_invalid {v : List Char} (hv : jsParseFloat v = none) :
    displaySync v = v := by
  by_cases hne : v = []
  · subst hne; rfl
  · rw [displaySync, if_neg hne, hv]

theorem displaySync_valid_dot {v : List Char} {q : ℚ} (hv : jsParseFloat v = some q)
    (hlast : v.getLast? = some '.') : displaySync v = toLocaleDefault q ++ ['.'] := by
  rw [displaySync, if_neg (jsParseFloat_ne_nil hv), hv]
  dsimp only
  rw [if_pos hlast]

theorem displaySync_valid_nodot {v : List Char} {q : ℚ} (hv : jsParseFloat v = some q)
    (hlast : v.getLast? ≠ some '.') : displaySync v = toLocaleDefault q := by
  rw [displaySync, if_neg (jsParseFloat_ne_nil hv), hv]
  dsimp only
  rw [if_neg hlast]

theorem handleBlur_empty {s : FieldState} (h : s.value = []) :
    handleBlur s = ({ s with display := [] }, false) := by
  rw [handleBlur, if_neg (by simp [h])]

theorem handleBlur_valid {s : FieldState} {q : ℚ}
    (h : jsParseFloat s.value = some q) :
    handleBlur s = ({ s with display := toLocaleDefault q }, false) := by
  rw [handleBlur, if_pos (jsParseFloat_ne_nil h), h]

theorem handleBlur_invalid {s : FieldState} (hne : s.value ≠ [])
    (h : jsParseFloat s.value = none) : handleBlur s = (⟨[], []⟩, true) := by
  rw [handleBlur, if_pos hne, h]

theorem compute_invalid {op : Op} {a b : List Char}
    (h : a = [] ∨ b = [] ∨ jsParseFloat a = none ∨ jsParseFloat b = none) :
    compute op a b = .fin 0 := by
  rw [compute, if_neg]
  rintro ⟨hb, ha, hsa, hsb⟩
  rcases h with rfl | rfl | h2 | h2
  · exact ha rfl
  · exact hb rfl
  · rw [h2] at hsa; cases hsa
  · rw [h2] at hsb; cases hsb

theorem compute_valid {op : Op} {a b : List Char} {x y : ℚ}
    (ha : jsParseFloat a = some x) (hb : jsParseFloat b = some y) :
    compute op a b = jsOp op x y := by
  rw [compute, if_pos ⟨jsParseFloat_ne_nil hb, jsParseFloat_ne_nil ha,
    by rw [ha]; rfl, by rw [hb]; rfl⟩, ha, hb]
  rfl

theorem formatNumber_degenerate {num : JSNum} (d : ℕ)
    (h : jsIsNaN num = true ∨ num = .fin 0) :
    formatNumber num d = some ('0' :: '.' :: List.replicate d '0') := by
  rw [formatNumber, if_pos]
  rcases h with h | rfl
  · simp [h]
  · simp [jsEqZero, jsIsNaN]

theorem formatNumber_posInf {d : ℕ} (h : d ≤ 100) :
    formatNumber .posInf d = some ['∞'] := by
  rw [formatNumber, if_neg (by decide), jsToLocaleFixed.eq_def,
    if_neg (by omega)]

theorem formatNumber_negInf {d : ℕ} (h : d ≤ 100) :
    formatNumber .negInf d = some ['-', '∞'] := by
  rw [formatNumber, if_neg (by decide), jsToLocaleFixed.eq_def,
    if_neg (by omega)]

theorem formatNumber_range_error {num : JSNum} {d : ℕ} (h : 100 < d)
    (hn : jsIsNaN num = false) (hz : jsEqZero num = false) :
    formatNumber num d = none := by
  rw [formatNumber, if_neg (by simp [hn, hz]), jsToLocaleFixed.eq_def,
    if_pos h]

/-! ### Concrete-evaluation helpers -/

theorem jsParseFloat_eval_digits {s : List Char} {m : ℕ} (hne : s ≠ [])
    (hd : ∀ c ∈ s, c.isDigit = true) (hm : natOfDigits s = m) :
    jsParseFloat s = some ((m : ℚ)) := by
  rw [jsParseFloat_digits hne hd, hm]

theorem jsParseFloat_eval_dot {l f : List Char} {a b : ℕ} (hne : l ≠ [])
    (hl : ∀ c ∈ l, c.isDigit = true) (hf : ∀ c ∈ f, c.isDigit = true)
    (ha : natOfDigits l = a) (hb : natOfDigits f = b) :
    jsParseFloat (l ++ '.' :: f) = some ((a : ℚ) + (b : ℚ) / 10 ^ f.length) := by
  have h := jsParseFloat_digits_dot (r := []) hne hl hf (fun c hc => by cases hc)
  rw [List.append_nil] at h
  rw [h, fracOfDigits, ha, hb]

theorem toLocaleDefault_eval {q : ℚ} {n : ℕ} (hq : 0 ≤ q) (hn : q * 1000 = n) :
    toLocaleDefault q = groupDigits (natDigits (n / 1000)) ++ fracPart (n % 1000) := by
  rw [toLocaleDefault, round_toNat_of_exact hq hn, if_neg (not_lt.mpr hq)]
  simp

/-! ### Claim theorems -/

/-- C1: for every pair of strings `a`, `b` and each formula operator, the
derived result is exactly 0 whenever `a` is empty, `b` is empty, or either
fails to parse; and whenever both parse (hence both are non-empty), the
result is `parse(a) OP parse(b)` with no rounding applied. -/
theorem claim1_compute_guard (op : Op) (a b : List Char) :
    ((a = [] ∨ b = [] ∨ jsParseFloat a = none ∨ jsParseFloat b = none) →
      compute op a b = .fin 0) ∧
    (∀ x y : ℚ, jsParseFloat a = some x → jsParseFloat b = some y →
      compute op a b = jsOp op x y) :=
  ⟨fun h => compute_invalid h, fun _ _ ha hb => compute_valid ha hb⟩

theorem claim1_compute_guard_witness :
    compute .divide [] "2".data = .fin 0 ∧
    jsParseFloat "6".data = some 6 ∧ jsParseFloat "2".data = some 2 ∧
    compute .divide "6".data "2".data = jsOp .divide 6 2 := by
  have h6 : jsParseFloat "6".data = some 6 := by
    rw [jsParseFloat_eval_digits (by decide) (by decide)
      (by decide : natOfDigits "6".data = 6)]
    norm_num
  have h2 : jsParseFloat "2".data = some 2 := by
    rw [jsParseFloat_eval_digits (by decide) (by decide)
      (by decide : natOfDigits "2".data = 2)]
    norm_num
  exact ⟨(claim1_compute_guard .divide [] "2".data).1 (Or.inl rfl), h6, h2,
    (claim1_compute_guard .divide "6".data "2".data).2 6 2 h6 h2⟩

/-- C2: for every number that is NaN or exactly 0 and every decimal count
`d`, `formatNumber` returns `"0"` followed by `"."` followed by exactly `d`
zero digits. -/
theorem claim2_formatNumber_zero_nan (num : JSNum) (decimals : ℕ)
    (h : jsIsNaN num = true ∨ num = .fin 0) :
    formatNumber num decimals = some ('0' :: '.' :: List.replicate decimals '0') :=
  formatNumber_degenerate decimals h

theorem claim2_formatNumber_zero_nan_witness :
    jsIsNaN .nan = true ∧ formatNumber .nan 2 = some ("0.00".data) := by
  refine ⟨rfl, ?_⟩
  rw [claim2_formatNumber_zero_nan .nan 2 (Or.inl rfl)]
  rfl

/-- C3 counterexample: formatting the number 0 with `decimals = 0` yields
`"0."`, not `"0"` as the claim states. -/
theorem claim3_format_zero_cex : formatNumber (.fin 0) 0 ≠ some ("0".data) := by
  decide

/-- C3 amended: formatting the number 0 with `decimals = 0` yields `"0."`
(the zero-branch emits `'0.'` and then zero repeated zero digits). -/
theorem claim3_format_zero_amended : formatNumber (.fin 0) 0 = some ("0.".data) := by
  decide

/-- C4 counterexample: the non-empty RawAmount `"0.0001"` parses to
`1/10000`, but its grouped DisplayText is `"0"` (the default locale format
keeps at most three fraction digits), which re-parses to `0`. -/
theorem claim4_roundtrip_cex :
    jsParseFloat "0.0001".data = some (1 / 10000) ∧
    jsParseFloat (removeCommas (displaySync "0.0001".data)) = some 0 ∧
    jsParseFloat (removeCommas (displaySync "0.0001".data)) ≠
      jsParseFloat "0.0001".data := by
  have hv : jsParseFloat "0.0001".data = some (1 / 10000) := by
    have h := jsParseFloat_eval_dot (l := ['0']) (f := ['0', '0', '0', '1'])
      (by decide) (by decide) (by decide) (by decide : natOfDigits ['0'] = 0)
      (by decide : natOfDigits ['0', '0', '0', '1'] = 1)
    rw [show ['0'] ++ '.' :: ['0', '0', '0', '1'] = "0.0001".data from rfl] at h
    rw [h]
    norm_num
  have hfl : (⌊|(1 / 10000 : ℚ)| * 1000 + 1 / 2⌋).toNat = 0 := by
    rw [show |(1 / 10000 : ℚ)| * 1000 + 1 / 2 = 3 / 5 by
      rw [abs_of_nonneg (by norm_num)]; norm_num]
    rw [show ⌊(3 / 5 : ℚ)⌋ = 0 by
      rw [Int.floor_eq_zero_iff, Set.mem_Ico]; constructor <;> norm_num]
    rfl
  have hd : displaySync "0.0001".data = toLocaleDefault (1 / 10000) :=
    displaySync_valid_nodot hv (by decide)
  have ht : toLocaleDefault (1 / 10000) = ['0'] := by
    rw [toLocaleDefault]
    simp only [hfl]
    rw [if_neg (by norm_num)]
    decide
  have hz : jsParseFloat (removeCommas (displaySync "0.0001".data)) = some 0 := by
    rw [hd, ht, show removeCommas ['0'] = ['0'] from rfl,
      jsParseFloat_eval_digits (by decide) (by decide)
        (by decide : natOfDigits ['0'] = 0)]
    norm_num
  refine ⟨hv, hz, ?_⟩
  rw [hv, hz]
  intro h
  rw [Option.some.injEq] at h
  norm_num at h

/-- C4 amended: the round-trip law holds for every non-empty RawAmount whose
parsed value needs at most three fraction digits (`q * 1000` is a natural
number); re-parsing the grouped DisplayText with separators removed then
recovers exactly the parsed value.  (For values with more fraction digits
the default grouped format rounds to three digits and the law fails.) -/
theorem claim4_roundtrip_amended {v : List Char} {q : ℚ}
    (hv : jsParseFloat v = some q) {n : ℕ} (hn : q * 1000 = n) :
    jsParseFloat (removeCommas (displaySync v)) = some q :=
  displaySync_reparse hv hn

theorem claim4_roundtrip_amended_witness :
    jsParseFloat "0.5".data = some (1 / 2) ∧
    (1 / 2 : ℚ) * 1000 = ((500 : ℕ) : ℚ) ∧
    jsParseFloat (removeCommas (displaySync "0.5".data)) = some (1 / 2) := by
  have hv : jsParseFloat "0.5".data = some (1 / 2) := by
    have h := jsParseFloat_eval_dot (l := ['0']) (f := ['5'])
      (by decide) (by decide) (by decide) (by decide : natOfDigits ['0'] = 0)
      (by decide : natOfDigits ['5'] = 5)
    rw [show ['0'] ++ '.' :: ['5'] = "0.5".data from rfl] at h
    rw [h]
    norm_num
  have hn : (1 / 2 : ℚ) * 1000 = ((500 : ℕ) : ℚ) := by norm_num
  exact ⟨hv, hn, claim4_roundtrip_amended hv hn⟩

/-- C5: the derived DisplayText is empty for an empty RawAmount, mirrors an
unparsable RawAmount verbatim, is the grouped number followed by a literal
dot for a parsable RawAmount ending in `'.'`, and is the grouped number
otherwise. -/
theorem claim5_displaySync_cases (v : List Char) :
    (v = [] → displaySync v = []) ∧
    (jsParseFloat v = none → displaySync v = v) ∧
    (∀ q : ℚ, jsParseFloat v = some q → v.getLast? = some '.' →
      displaySync v = toLocaleDefault q ++ ['.']) ∧
    (∀ q : ℚ, jsParseFloat v = some q → v.getLast? ≠ some '.' →
      displaySync v = toLocaleDefault q) :=
  ⟨fun h => h ▸ displaySync_nil, fun h => displaySync_invalid h,
    fun _ hv hl => displaySync_valid_dot hv hl,
    fun _ hv hl => displaySync_valid_nodot hv hl⟩

theorem claim5_displaySync_cases_witness :
    jsParseFloat "12.".data = some 12 ∧ ("12.".data).getLast? = some '.' ∧
    displaySync "12.".data = toLocaleDefault 12 ++ ['.'] ∧
    toLocaleDefault 12 ++ ['.'] = "12.".data := by
  have hv : jsParseFloat "12.".data = some 12 := by
    have h := jsParseFloat_eval_dot (l := ['1', '2']) (f := [])
      (by decide) (by decide) (by decide)
      (by decide : natOfDigits ['1', '2'] = 12) (by decide : natOfDigits [] = 0)
    rw [show ['1', '2'] ++ '.' :: [] = "12.".data from rfl] at h
    rw [h]
    norm_num
  have ht : toLocaleDefault 12 = "12".data := by
    rw [toLocaleDefault_eval (q := 12) (n := 12000) (by norm_num) (by norm_num)]
    decide
  refine ⟨hv, by decide, ?_, by rw [ht]; rfl⟩
  exact (claim5_displaySync_cases "12.".data).2.2.1 12 hv (by decide)

/-- C6: on blur, a non-empty parsable RawAmount re-sets DisplayText to the
grouped number while the RawAmount itself is unchanged and no change is
emitted; a non-empty unparsable RawAmount clears both to empty (emitting the
change); an empty RawAmount leaves DisplayText empty.  In particular blur on
`"1234."` re-formats DisplayText to `"1,234"` with the RawAmount untouched. -/
theorem claim6_handleBlur_cases (s : FieldState) :
    (s.value = [] → handleBlur s = ({ s with display := [] }, false)) ∧
    (∀ q : ℚ, jsParseFloat s.value = some q →
      handleBlur s = ({ s with display := toLocaleDefault q }, false)) ∧
    (s.value ≠ [] → jsParseFloat s.value = none →
      handleBlur s = (⟨[], []⟩, true)) :=
  ⟨fun h => handleBlur_empty h, fun _ h => handleBlur_valid h,
    fun hne h => handleBlur_invalid hne h⟩

theorem claim6_handleBlur_cases_witness :
    jsParseFloat "1234.".data = some 1234 ∧
    handleBlur ⟨"1234.".data, "1,234.".data⟩ =
      (⟨"1234.".data, "1,234".data⟩, false) := by
  have hv : jsParseFloat "1234.".data = some 1234 := by
    have h := jsParseFloat_eval_dot (l := ['1', '2', '3', '4']) (f := [])
      (by decide) (by decide) (by decide)
      (by decide : natOfDigits ['1', '2', '3', '4'] = 1234)
      (by decide : natOfDigits [] = 0)
    rw [show ['1', '2', '3', '4'] ++ '.' :: [] = "1234.".data from rfl] at h
    rw [h]
    norm_num
  have ht : toLocaleDefault 1234 = "1,234".data := by
    rw [toLocaleDefault_eval (q := 1234) (n := 1234000) (by norm_num) (by norm_num)]
    decide
  refine ⟨hv, ?_⟩
  rw [(claim6_handleBlur_cases ⟨"1234.".data, "1,234.".data⟩).2.1 1234 hv, ht]

/-- C7: for every input string, sanitization produces a string containing
only digits and dots, with at most one dot. -/
theorem claim7_sanitize_wellformed (s : List Char) :
    (∀ c ∈ sanitize s, c.isDigit = true ∨ c = '.') ∧
    (sanitize s).count '.' ≤ 1 := by
  refine ⟨?_, sanitize_count s⟩
  intro c hc
  have h := sanitize_chars s c hc
  rw [isAmountChar] at h
  simpa using h

/-- C8: when the stripped input still contains two or more dots,
sanitization leaves exactly one dot, keeps every digit in its original
left-to-right order, and the surviving dot is the first one (the output up
to the dot is exactly the stripped input up to its first dot). -/
theorem claim8_sanitize_collapse {s : List Char}
    (h : 2 ≤ (s.filter isAmountChar).count '.') :
    (sanitize s).count '.' = 1 ∧
    (sanitize s).filter Char.isDigit = s.filter Char.isDigit ∧
    (sanitize s).takeWhile (fun c => c != '.') =
      (s.filter isAmountChar).takeWhile (fun c => c != '.') :=
  ⟨sanitize_count_of_many_dots h, sanitize_digits_of_many_dots h,
    sanitize_takeWhile_of_many_dots h⟩

theorem claim8_sanitize_collapse_witness :
    2 ≤ ("1.2.3".data.filter isAmountChar).count '.' ∧
    (sanitize "1.2.3".data).count '.' = 1 ∧
    (sanitize "1.2.3".data).filter Char.isDigit =
      "1.2.3".data.filter Char.isDigit ∧
    (sanitize "1.2.3".data).takeWhile (fun c => c != '.') =
      ("1.2.3".data.filter isAmountChar).takeWhile (fun c => c != '.') := by
  have h : 2 ≤ ("1.2.3".data.filter isAmountChar).count '.' := by decide
  have hc := claim8_sanitize_collapse h
  exact ⟨h, hc.1, hc.2.1, hc.2.2⟩

/-- C9 counterexample: result formatting does throw for some input, the
infinities included — ECMA-402 option validation rejects the fraction-digit
count 101 with a RangeError (modelled `none`) before the value is looked
at, so `formatNumber` with `decimals = 101` throws on positive infinity, on
negative infinity, and on any non-zero finite value. -/
theorem claim9_never_throws_cex :
    formatNumber .posInf 101 = none ∧ formatNumber .negInf 101 = none ∧
    formatNumber (.fin 1) 101 = none := by decide

/-- C9 amended: no core operation throws as long as the fraction-digit
count passed to result formatting stays in the ECMA-402 range 0–100 (this
program only ever passes 0 or 2): within that range `formatNumber` yields
the locale infinity signs on the infinities, and for NaN (or 0) it never
reaches the locale call at all, so it cannot throw for any decimals count;
sanitization, display synchronization, blur handling and the derived-result
computation are total for every input, with non-numeric states degrading to
zero (the derived result), to the verbatim text (display sync), or to empty
strings (blur on an unparsable value) rather than signaling failure. -/
theorem claim9_no_throw_amended :
    (∀ d : ℕ, d ≤ 100 → formatNumber .posInf d = some ['∞'] ∧
      formatNumber .negInf d = some ['-', '∞']) ∧
    (∀ d : ℕ, formatNumber .nan d = some ('0' :: '.' :: List.replicate d '0')) ∧
    (∀ (op : Op) (a b : List Char),
      a = [] ∨ b = [] ∨ jsParseFloat a = none ∨ jsParseFloat b = none →
      compute op a b = .fin 0) ∧
    (∀ v : List Char, jsParseFloat v = none → displaySync v = v) ∧
    (∀ s : FieldState, s.value ≠ [] → jsParseFloat s.value = none →
      handleBlur s = (⟨[], []⟩, true)) :=
  ⟨fun _ h => ⟨formatNumber_posInf h, formatNumber_negInf h⟩,
    fun d => formatNumber_degenerate d (Or.inl rfl),
    fun _ _ _ h => compute_invalid h,
    fun _ h => displaySync_invalid h,
    fun _ hne h => handleBlur_invalid hne h⟩

theorem claim9_no_throw_amended_witness :
    (2 : ℕ) ≤ 100 ∧ formatNumber .posInf 2 = some ['∞'] ∧
    formatNumber .nan 3 = some ("0.000".data) ∧
    compute .divide ".".data "2".data = .fin 0 ∧
    displaySync ".".data = ".".data ∧
    handleBlur ⟨".".data, ".".data⟩ = (⟨[], []⟩, true) :=
  ⟨by norm_num,
    (claim9_no_throw_amended.1 2 (by norm_num)).1,
    by rw [claim9_no_throw_amended.2.1 3]; rfl,
    claim9_no_throw_amended.2.2.1 .divide ".".data "2".data
      (Or.inr (Or.inr (Or.inl (by decide)))),
    claim9_no_throw_amended.2.2.2.1 ".".data (by decide),
    claim9_no_throw_amended.2.2.2.2 ⟨".".data, ".".data⟩ (by decide) (by decide)⟩

/-- C10: sanitization is idempotent, and every string of digits and dots
with at most one dot is a fixed point of sanitization. -/
theorem claim10_sanitize_idem :
    (∀ s : List Char, sanitize (sanitize s) = sanitize s) ∧
    (∀ l : List Char, (∀ c ∈ l, isAmountChar c = true) → l.count '.' ≤ 1 →
      sanitize l = l) :=
  ⟨fun s => sanitize_fixed (sanitize_chars s) (sanitize_count s),
    fun _ h1 h2 => sanitize_fixed h1 h2⟩

theorem claim10_sanitize_idem_witness :
    sanitize (sanitize "9a.b.c8".data) = sanitize "9a.b.c8".data ∧
    sanitize "12.3".data = "12.3".data :=
  ⟨claim10_sanitize_idem.1 "9a.b.c8".data,
    claim10_sanitize_idem.2 "12.3".data (by decide) (by decide)⟩

end ExCalc
